import Mathlib

/-!
Verification of the analysis core of `src/scripts/analyze_gl.py`.

The script ingests a tabular dataset and produces a statistical profile:
column profiles (null counts / percentages), date ranges, and a Benford's
Law leading-digit analysis. This file gives a shallow embedding of those
functions and proves / refutes the specification's claims about them.

Modelling conventions:
* Python floats flowing through `first_digit` are modelled by `PyFloat`
  (NaN, the two infinities, or an exact rational). IEEE rounding is not
  modelled; finite values are exact rationals.
* The two `while` loops in `first_digit` are embedded with explicit fuel;
  an exhausted fuel (`none`) models a loop that is still running.
* `math.log10` is modelled by `Real.logb 10`.
-/

namespace AnalyzeGL

/-- Model of a Python float as it flows through `first_digit` in
`src/scripts/analyze_gl.py`: NaN, one of the two infinities, or a finite
value (an exact rational). -/
inductive PyFloat : Type
  | nan : PyFloat
  | inf : PyFloat
  | ninf : PyFloat
  | fin : ℚ → PyFloat
  deriving DecidableEq

/-- Python `pd.isna(value)` on a scalar: true exactly for NaN (and for
`None`, which is also modelled by `PyFloat.nan` since `first_digit` treats
the two identically). Infinities are not NA. -/
def pyIsNA : PyFloat → Bool
  | .nan => true
  | _ => false

/-- Python `abs(float(value))` (line 64). -/
def pyAbs : PyFloat → PyFloat
  | .nan => .nan
  | .inf => .inf
  | .ninf => .inf
  | .fin q => .fin |q|

/-- Python `value == 0` (line 65): NaN and the infinities compare unequal
to zero. -/
def pyEqZero : PyFloat → Bool
  | .fin q => decide (q = 0)
  | _ => false

/-- Python `value < 1` (loop guard, line 67): false for NaN and `inf`,
true for `-inf`. -/
def pyLtOne : PyFloat → Bool
  | .fin q => decide (q < 1)
  | .ninf => true
  | _ => false

/-- Python `value >= 10` (loop guard, line 69): true for `inf`, false for
NaN and `-inf`. -/
def pyGeTen : PyFloat → Bool
  | .fin q => decide (10 ≤ q)
  | .inf => true
  | _ => false

/-- Python `value * 10` (line 68): `inf * 10 = inf`, `nan * 10 = nan`. -/
def pyMulTen : PyFloat → PyFloat
  | .fin q => .fin (q * 10)
  | x => x

/-- Python `value / 10` (line 70): `inf / 10 = inf`, `nan / 10 = nan`. -/
def pyDivTen : PyFloat → PyFloat
  | .fin q => .fin (q / 10)
  | x => x

/-- Python `int(value)` (line 71). At this call site the value is in
`[1, 10)`, where truncation toward zero agrees with the floor. `int` of
NaN or an infinity raises in Python, modelled as `none` (unreachable in
the proved cases). -/
def pyTrunc : PyFloat → Option ℤ
  | .fin q => some ⌊q⌋
  | _ => none

/-- The loop `while value < 1: value *= 10` of `first_digit`
(src/scripts/analyze_gl.py lines 67-68), instrumented with fuel: `none`
means the fuel ran out with the guard still true (the loop would still be
running). -/
def mulLoop : ℕ → PyFloat → Option PyFloat
  | 0, v => if pyLtOne v then none else some v
  | fuel + 1, v => if pyLtOne v then mulLoop fuel (pyMulTen v) else some v

/-- The loop `while value >= 10: value /= 10` (lines 69-70), instrumented
with fuel. -/
def divLoop : ℕ → PyFloat → Option PyFloat
  | 0, v => if pyGeTen v then none else some v
  | fuel + 1, v => if pyGeTen v then divLoop fuel (pyDivTen v) else some v

/-- Fuel-instrumented embedding of `first_digit` (lines 61-71). The outer
`Option` records whether both normalization loops finished within `fuel`
iterations (`none` = the code would still be looping, or `int()` raised);
the inner `Option` is the Python return value (`None` = undefined). -/
def firstDigitF (fuel : ℕ) (x : PyFloat) : Option (Option ℤ) :=
  if pyIsNA x then some none
  else
    let a := pyAbs x
    if pyEqZero a then some none
    else
      match (mulLoop fuel a).bind (divLoop fuel) with
      | none => none
      | some v => (pyTrunc v).map some

/-- Fuel that always suffices for a finite nonzero input `q` (theorem
`firstDigitF_fin_spec`): `q.den` upward steps bring `|q|` to at least 1 and
`q.num.natAbs` downward steps bring it under 10. -/
def fdFuel (q : ℚ) : ℕ := q.den + q.num.natAbs

/-- Terminating form of `first_digit` on non-pathological inputs: `none`
stands for a missing value (Python `None` or NaN, for which `pd.isna` is
true); `some q` is the finite float `q`. For finite inputs both loops
finish within `fdFuel q` iterations (theorem `firstDigitF_fin_spec`), so
joining the two `Option` layers loses nothing. -/
def first_digit : Option ℚ → Option ℤ
  | none => none
  | some q => (firstDigitF (fdFuel q) (.fin q)).join

theorem mulLoop_inf (fuel : ℕ) : mulLoop fuel PyFloat.inf = some PyFloat.inf := by
  cases fuel <;> rfl

theorem divLoop_inf (fuel : ℕ) : divLoop fuel PyFloat.inf = none := by
  induction fuel with
  | zero => rfl
  | succ n ih => simpa [divLoop, pyGeTen, pyDivTen] using ih

/-- C1: the code does NOT treat `inf` as undefined: on `float('inf')` the
loop `while value >= 10: value /= 10` never exits (`inf / 10 == inf`), so
`first_digit` never returns, whatever the fuel. (The claim is right about
`None`/NaN and about numeric zero: those do return undefined.) -/
theorem first_digit_diverges_on_inf (fuel : ℕ) :
    firstDigitF fuel PyFloat.inf = none ∧
    firstDigitF fuel PyFloat.ninf = none ∧
    firstDigitF fuel PyFloat.nan = some none ∧
    firstDigitF fuel (PyFloat.fin 0) = some none := by
  refine ⟨?_, ?_, rfl, ?_⟩
  · simp [firstDigitF, pyIsNA, pyAbs, pyEqZero, mulLoop_inf, divLoop_inf]
  · simp [firstDigitF, pyIsNA, pyAbs, pyEqZero, mulLoop_inf, divLoop_inf]
  · simp [firstDigitF, pyIsNA, pyAbs, pyEqZero]

/-- The upward loop on a finite positive value: with enough fuel it stops
at `v * 10 ^ j` for the least `j` making that at least 1 (so the result is
below 10 unless the loop did not run at all). -/
theorem mulLoop_fin_spec :
    ∀ (fuel : ℕ) (v : ℚ), 0 < v → 1 ≤ v * 10 ^ fuel →
    ∃ j : ℕ, mulLoop fuel (.fin v) = some (.fin (v * 10 ^ j)) ∧
      1 ≤ v * 10 ^ j ∧ (j = 0 ∨ v * 10 ^ j < 10) := by
  intro fuel
  induction fuel with
  | zero =>
    intro v hv h1
    rw [pow_zero, mul_one] at h1
    refine ⟨0, ?_, by simpa using h1, Or.inl rfl⟩
    simp [mulLoop, pyLtOne, not_lt.mpr h1]
  | succ n ih =>
    intro v hv h1
    by_cases hlt : v < 1
    · have e : v * 10 ^ (n + 1) = v * 10 * 10 ^ n := by ring
      rw [e] at h1
      obtain ⟨j, hrun, hge, hbd⟩ := ih (v * 10) (by positivity) h1
      have ej : v * 10 ^ (j + 1) = v * 10 * 10 ^ j := by ring
      refine ⟨j + 1, ?_, ?_, Or.inr ?_⟩
      · simpa [mulLoop, pyLtOne, hlt, pyMulTen, ej] using hrun
      · rw [ej]; exact hge
      · rw [ej]
        rcases hbd with h0 | hb
        · subst h0
          rw [pow_zero, mul_one]
          linarith
        · exact hb
    · rw [not_lt] at hlt
      refine ⟨0, ?_, by simpa using hlt, Or.inl rfl⟩
      simp [mulLoop, pyLtOne, not_lt.mpr hlt]

/-- The downward loop on a finite value at least 1 and below
`10 ^ (fuel + 1)`: it stops at `v / 10 ^ j` inside `[1, 10)`. -/
theorem divLoop_fin_spec :
    ∀ (fuel : ℕ) (v : ℚ), 1 ≤ v → v < 10 ^ (fuel + 1) →
    ∃ j : ℕ, divLoop fuel (.fin v) = some (.fin (v / 10 ^ j)) ∧
      1 ≤ v / 10 ^ j ∧ v / 10 ^ j < 10 := by
  intro fuel
  induction fuel with
  | zero =>
    intro v hv hub
    rw [pow_one] at hub
    refine ⟨0, ?_, by simpa using hv, by simpa using hub⟩
    simp [divLoop, pyGeTen, not_le.mpr hub]
  | succ n ih =>
    intro v hv hub
    by_cases hge : 10 ≤ v
    · have hv' : (1 : ℚ) ≤ v / 10 := by
        rw [le_div_iff₀ (by norm_num : (0:ℚ) < 10)]; linarith
      have hub' : v / 10 < 10 ^ (n + 1) := by
        rw [div_lt_iff₀ (by norm_num : (0:ℚ) < 10)]
        calc v < 10 ^ (n + 1 + 1) := hub
        _ = 10 ^ (n + 1) * 10 := by ring
      obtain ⟨j, hrun, hge2, hlt2⟩ := ih (v / 10) hv' hub'
      have ej : v / 10 ^ (j + 1) = v / 10 / 10 ^ j := by
        rw [div_div, ← pow_succ']
      refine ⟨j + 1, ?_, ?_, ?_⟩
      · simpa [divLoop, pyGeTen, hge, pyDivTen, ej] using hrun
      · rw [ej]; exact hge2
      · rw [ej]; exact hlt2
    · rw [not_le] at hge
      refine ⟨0, ?_, by simpa using hv, by simpa using hge⟩
      simp [divLoop, pyGeTen, not_le.mpr hge]

/-- Reduction of `firstDigitF` on a finite nonzero input to its loop
pipeline. -/
theorem firstDigitF_fin_eq (fuel : ℕ) (q : ℚ) (hq : q ≠ 0) :
    firstDigitF fuel (.fin q) =
      match (mulLoop fuel (.fin |q|)).bind (divLoop fuel) with
      | none => none
      | some v => (pyTrunc v).map some := by
  simp [firstDigitF, pyIsNA, pyAbs, pyEqZero, abs_eq_zero, hq]

/-- For a finite nonzero rational, `first_digit`'s loops finish within
`fdFuel q` steps and leave the normalized value `|q| * 10 ^ t` in
`[1, 10)`; the function returns its floor. -/
theorem firstDigitF_fin_spec (q : ℚ) (hq : q ≠ 0) :
    ∃ (t : ℤ) (v : ℚ), 1 ≤ v ∧ v < 10 ∧ v = |q| * 10 ^ t ∧
      firstDigitF (fdFuel q) (.fin q) = some (some ⌊v⌋) := by
  have habs : 0 < |q| := abs_pos.mpr hq
  have hnum : (1 : ℚ) ≤ |(q.num : ℚ)| := by
    have hn0 : q.num ≠ 0 := Rat.num_ne_zero.mpr hq
    have h1 : (1 : ℤ) ≤ |q.num| := Int.one_le_abs (by simpa using hn0)
    calc (1 : ℚ) = ((1 : ℤ) : ℚ) := by norm_num
    _ ≤ ((|q.num| : ℤ) : ℚ) := by exact_mod_cast h1
    _ = |(q.num : ℚ)| := by push_cast; ring
  have hden : (0 : ℚ) < (q.den : ℚ) := by exact_mod_cast q.pos
  have habs_eq : |q| = |(q.num : ℚ)| / (q.den : ℚ) := by
    conv_lhs => rw [← Rat.num_div_den q]
    rw [abs_div, abs_of_pos hden]
  have hmul : 1 ≤ |q| * 10 ^ fdFuel q := by
    have hden_pow : (q.den : ℚ) ≤ 10 ^ q.den := by
      exact_mod_cast (Nat.lt_pow_self (by norm_num : 1 < 10) q.den).le
    have h1 : (q.den : ℚ) ≤ 10 ^ fdFuel q := by
      calc (q.den : ℚ) ≤ 10 ^ q.den := hden_pow
      _ ≤ 10 ^ fdFuel q := by
        gcongr
        · norm_num
        · exact Nat.le_add_right _ _
    have h2 : 1 ≤ |q| * (q.den : ℚ) := by
      rw [habs_eq, div_mul_cancel₀ _ hden.ne']
      exact hnum
    calc (1 : ℚ) ≤ |q| * (q.den : ℚ) := h2
    _ ≤ |q| * 10 ^ fdFuel q := mul_le_mul_of_nonneg_left h1 (abs_nonneg q)
  obtain ⟨j, hrunU, hgeU, hbdU⟩ := mulLoop_fin_spec (fdFuel q) |q| habs hmul
  have hup : |q| * 10 ^ j < 10 ^ (fdFuel q + 1) := by
    rcases hbdU with h0 | hb
    · subst h0
      rw [pow_zero, mul_one]
      have h3 : |q| ≤ |(q.num : ℚ)| := by
        rw [habs_eq]
        have hd1 : (1 : ℚ) ≤ (q.den : ℚ) := by exact_mod_cast q.pos
        calc |(q.num : ℚ)| / (q.den : ℚ) ≤ |(q.num : ℚ)| / 1 := by gcongr
        _ = |(q.num : ℚ)| := by ring
      have he : |(q.num : ℚ)| = (q.num.natAbs : ℚ) := by
        rw [Int.cast_natAbs, Int.cast_abs]
      have h4 : |(q.num : ℚ)| < 10 ^ fdFuel q := by
        rw [he]
        have hn : (q.num.natAbs : ℚ) < 10 ^ q.num.natAbs := by
          exact_mod_cast Nat.lt_pow_self (by norm_num : 1 < 10) q.num.natAbs
        calc (q.num.natAbs : ℚ) < 10 ^ q.num.natAbs := hn
        _ ≤ 10 ^ fdFuel q := by
          gcongr
          · norm_num
          · exact Nat.le_add_left _ _
      have h5 : (10 : ℚ) ^ fdFuel q ≤ 10 ^ (fdFuel q + 1) := by
        gcongr
        · norm_num
        · exact Nat.le_succ _
      exact lt_of_le_of_lt h3 (lt_of_lt_of_le h4 h5)
    · calc |q| * 10 ^ j < 10 := hb
      _ = 10 ^ 1 := (pow_one _).symm
      _ ≤ 10 ^ (fdFuel q + 1) := by
        gcongr
        · norm_num
        · omega
  obtain ⟨j2, hrunD, hgeD, hltD⟩ := divLoop_fin_spec (fdFuel q) (|q| * 10 ^ j) hgeU hup
  refine ⟨(j : ℤ) - (j2 : ℤ), |q| * 10 ^ j / 10 ^ j2, hgeD, hltD, ?_, ?_⟩
  · rw [zpow_sub₀ (by norm_num : (10:ℚ) ≠ 0), zpow_natCast, zpow_natCast]
    ring
  · rw [firstDigitF_fin_eq _ q hq, hrunU]
    simp only [Option.some_bind]
    rw [hrunD]
    simp [pyTrunc]

/-- A value in `[1, 10)` determines its power-of-ten scaling: two such
values differing by a factor `10 ^ t` are equal. -/
theorem normalized_unique {a b : ℚ} (ha1 : 1 ≤ a) (ha2 : a < 10)
    (hb1 : 1 ≤ b) (hb2 : b < 10) (t : ℤ) (h : a = b * 10 ^ t) : a = b := by
  rcases t with n | n
  · cases n with
    | zero => simpa using h
    | succ m =>
      exfalso
      have hp : (10 : ℚ) ^ (Int.ofNat (m + 1)) = 10 ^ (m + 1) := zpow_natCast _ _
      rw [hp] at h
      have hpow : (10 : ℚ) ≤ 10 ^ (m + 1) := by
        calc (10 : ℚ) = 10 ^ 1 := (pow_one _).symm
        _ ≤ 10 ^ (m + 1) := by
          gcongr
          · norm_num
          · omega
      nlinarith
  · exfalso
    rw [zpow_negSucc] at h
    have hpow : (10 : ℚ) ≤ 10 ^ (n + 1) := by
      calc (10 : ℚ) = 10 ^ 1 := (pow_one _).symm
      _ ≤ 10 ^ (n + 1) := by
        gcongr
        · norm_num
        · omega
    have hpos : (0 : ℚ) < 10 ^ (n + 1) := by positivity
    have hb : a * 10 ^ (n + 1) = b := by
      rw [h]
      field_simp
    nlinarith

/-- On a finite nonzero input, `first_digit` returns the floor of ANY
normalized form `|q| * 10 ^ t` that lies in `[1, 10)`. -/
theorem first_digit_eq_floor {q : ℚ} (hq : q ≠ 0) {v : ℚ} {t : ℤ}
    (hv1 : 1 ≤ v) (hv2 : v < 10) (hvq : v = |q| * 10 ^ t) :
    first_digit (some q) = some ⌊v⌋ := by
  obtain ⟨s, w, hw1, hw2, hwq, hrun⟩ := firstDigitF_fin_spec q hq
  have hexp : s + (t - s) = t := by omega
  have hv_w : v = w * 10 ^ (t - s) := by
    rw [hvq, hwq, mul_assoc, ← zpow_add₀ (by norm_num : (10:ℚ) ≠ 0), hexp]
  have hvw : v = w := normalized_unique hv1 hv2 hw1 hw2 _ hv_w
  simp [first_digit, hrun, hvw]

/-- C4: scale invariance of the leading digit — for a nonzero finite
numeric `x` and any integer `k`, `first_digit x = first_digit (x * 10^k)`
(finite values modelled as exact rationals). -/
theorem first_digit_scale_invariant (x : ℚ) (k : ℤ) (hx : x ≠ 0) :
    first_digit (some x) = first_digit (some (x * 10 ^ k)) := by
  obtain ⟨t, v, hv1, hv2, hvq, hrun⟩ := firstDigitF_fin_spec x hx
  have h10 : (0:ℚ) < (10:ℚ) ^ k := zpow_pos (by norm_num) k
  have hy : x * 10 ^ k ≠ 0 := mul_ne_zero hx (ne_of_gt h10)
  have habs2 : |x * 10 ^ k| = |x| * 10 ^ k := by
    rw [abs_mul, abs_of_pos h10]
  have hexp : k + (t - k) = t := by omega
  have hv' : v = |x * 10 ^ k| * 10 ^ (t - k) := by
    rw [habs2, mul_assoc, ← zpow_add₀ (by norm_num : (10:ℚ) ≠ 0), hexp, ← hvq]
  have h1 : first_digit (some x) = some ⌊v⌋ := by
    simp [first_digit, hrun]
  have h2 : first_digit (some (x * 10 ^ k)) = some ⌊v⌋ :=
    first_digit_eq_floor hy hv1 hv2 hv'
  rw [h1, h2]

/-- Witness for `first_digit_scale_invariant` at `x = 3`, `k = -2`. -/
theorem first_digit_scale_invariant_witness :
    (3 : ℚ) ≠ 0 ∧ first_digit (some 3) = first_digit (some (3 * 10 ^ (-2 : ℤ))) :=
  ⟨by norm_num, first_digit_scale_invariant 3 (-2) (by norm_num)⟩

theorem first_digit_zero : first_digit (some 0) = none := rfl

theorem first_digit_none : first_digit none = none := rfl

/-- On a finite nonzero input, `first_digit` yields a digit in `1..9`. -/
theorem first_digit_ne_zero (q : ℚ) (hq : q ≠ 0) :
    ∃ d : ℤ, first_digit (some q) = some d ∧ 1 ≤ d ∧ d ≤ 9 := by
  obtain ⟨t, v, hv1, hv2, hvq, hrun⟩ := firstDigitF_fin_spec q hq
  refine ⟨⌊v⌋, by simp [first_digit, hrun], ?_, ?_⟩
  · exact Int.le_floor.mpr (by exact_mod_cast hv1)
  · have : ⌊v⌋ < 10 := Int.floor_lt.mpr (by exact_mod_cast hv2)
    omega

/-- `first_digit` returns `none` exactly on zero (among finite inputs). -/
theorem first_digit_eq_none_iff (q : ℚ) :
    first_digit (some q) = none ↔ q = 0 := by
  constructor
  · intro h
    by_contra hq
    obtain ⟨d, hd, _, _⟩ := first_digit_ne_zero q hq
    rw [h] at hd
    exact Option.noConfusion hd
  · intro h
    subst h
    exact first_digit_zero

/-- The digit sequence `series.dropna().apply(first_digit).dropna()`
(lines 79-80): missing values dropped, `first_digit` applied, undefined
results dropped. A pandas numeric series is modelled as
`List (Option ℚ)`, `none` being NaN. -/
def digitsOf (series : List (Option ℚ)) : List ℤ :=
  (series.filterMap id).filterMap fun q => first_digit (some q)

/-- Pandas `Series.value_counts()` as used on line 81: the table of
distinct occurring values with their multiplicities (its ordering is
irrelevant once `reindex` looks keys up). -/
def value_counts (l : List ℤ) : List (ℤ × ℕ) :=
  l.dedup.map fun z => (z, l.count z)

/-- Pandas `.reindex(range(1, 10), fill_value=0)` (line 81): a dense table
over the digits 1..9, filling absent digits with count 0 and dropping any
key outside 1..9. Digit `d` is stored at index `d - 1 : Fin 9`. -/
def reindex19 (t : List (ℤ × ℕ)) : Fin 9 → ℕ :=
  fun i => (t.lookup ((i : ℤ) + 1)).getD 0

/-- Embedding of `benford_distribution` (lines 78-82). -/
def benford_distribution (series : List (Option ℚ)) : Fin 9 → ℕ :=
  reindex19 (value_counts (digitsOf series))

theorem lookup_map_count (l : List ℤ) (keys : List ℤ) (hnd : keys.Nodup) (z : ℤ) :
    (keys.map fun k => (k, l.count k)).lookup z =
      if z ∈ keys then some (l.count z) else none := by
  induction keys with
  | nil => simp
  | cons a ks ih =>
    rw [List.nodup_cons] at hnd
    by_cases hz : z = a
    · subst hz
      simp [List.lookup]
    · have hne : (z == a) = false := beq_eq_false_iff_ne.mpr hz
      simp [List.lookup, hne, ih hnd.2, List.mem_cons, hz]

theorem benford_distribution_count (series : List (Option ℚ)) (i : Fin 9) :
    benford_distribution series i = (digitsOf series).count ((i : ℤ) + 1) := by
  unfold benford_distribution reindex19 value_counts
  rw [lookup_map_count _ _ (List.nodup_dedup _)]
  by_cases hm : ((i : ℤ) + 1) ∈ (digitsOf series).dedup
  · simp [hm]
  · have hnm : ((i : ℤ) + 1) ∉ digitsOf series := fun h => hm (List.mem_dedup.mpr h)
    simp [hm, List.count_eq_zero.mpr hnm]

theorem digitsOf_mem (series : List (Option ℚ)) (z : ℤ) (hz : z ∈ digitsOf series) :
    1 ≤ z ∧ z ≤ 9 := by
  unfold digitsOf at hz
  rw [List.mem_filterMap] at hz
  obtain ⟨q, hq, hfd⟩ := hz
  by_cases h0 : q = 0
  · subst h0
    rw [first_digit_zero] at hfd
    exact absurd hfd (by simp)
  · obtain ⟨d, hd, h1, h9⟩ := first_digit_ne_zero q h0
    rw [hd] at hfd
    obtain rfl : d = z := by injection hfd
    exact ⟨h1, h9⟩

theorem digitsOf_length (series : List (Option ℚ)) :
    (digitsOf series).length =
      ((series.filterMap id).filter fun q => q ≠ 0).length := by
  unfold digitsOf
  induction series.filterMap id with
  | nil => simp
  | cons q l ih =>
    by_cases h0 : q = 0
    · subst h0
      simp [List.filterMap_cons, first_digit_zero, List.filter_cons, ih]
    · obtain ⟨d, hd, _, _⟩ := first_digit_ne_zero q h0
      simp [List.filterMap_cons, hd, List.filter_cons, h0, ih]

theorem count_sum_of_digits (l : List ℤ) (h : ∀ z ∈ l, 1 ≤ z ∧ z ≤ 9) :
    (∑ i : Fin 9, l.count ((i : ℤ) + 1)) = l.length := by
  induction l with
  | nil => simp
  | cons a t ih =>
    have ha := h a (List.mem_cons_self a t)
    have ht : ∀ z ∈ t, 1 ≤ z ∧ z ≤ 9 := fun z hz => h z (List.mem_cons_of_mem a hz)
    have h9 : (a - 1).toNat < 9 := by omega
    have heq : ∀ i : Fin 9, ((a == ((i : ℤ) + 1)) = true) ↔ (i = ⟨(a - 1).toNat, h9⟩) := by
      intro i
      rw [beq_iff_eq]
      constructor
      · intro hi
        apply Fin.ext
        simp only [Fin.val_mk]
        omega
      · intro hi
        subst hi
        simp only [Fin.val_mk]
        omega
    have key : (∑ i : Fin 9, if (a == ((i : ℤ) + 1)) = true then 1 else 0) = 1 := by
      rw [Finset.sum_congr rfl fun i _ => if_congr (heq i) rfl rfl]
      simp
    simp only [List.count_cons, List.length_cons]
    rw [Finset.sum_add_distrib, ih ht, key]

/-- C6: the produced distribution is dense over digits 1..9 — entry `d`
holds the tally of `d` among the extracted leading digits (count 0 when the
digit never occurs, never a missing key) — and the nine counts sum to the
number of non-null, non-zero input samples. -/
theorem benford_distribution_dense_and_sums (series : List (Option ℚ)) :
    (∀ i : Fin 9,
      benford_distribution series i = (digitsOf series).count ((i : ℤ) + 1)) ∧
    (∑ i : Fin 9, benford_distribution series i) =
      ((series.filterMap id).filter fun q => q ≠ 0).length := by
  refine ⟨benford_distribution_count series, ?_⟩
  calc (∑ i : Fin 9, benford_distribution series i)
      = ∑ i : Fin 9, (digitsOf series).count ((i : ℤ) + 1) :=
        Finset.sum_congr rfl fun i _ => benford_distribution_count series i
  _ = (digitsOf series).length :=
        count_sum_of_digits _ fun z hz => digitsOf_mem series z hz
  _ = _ := digitsOf_length series

/-- Embedding of `benford_expected_distribution` (lines 74-75):
`math.log10(1 + 1 / digit)` for digit in 1..9, with `math.log10` modelled
as `Real.logb 10`. Digit `d` sits at index `d - 1 : Fin 9`. -/
noncomputable def benford_expected_distribution : Fin 9 → ℝ :=
  fun i => Real.logb 10 (1 + 1 / ((i : ℕ) + 1 : ℝ))

/-- Result record of `benford_stats` (line 89 / line 93): a Python float
`nan` is modelled as `none`. -/
structure BenfordFit where
  n : ℕ
  mad : Option ℝ
  chi_square : Option ℝ

/-- Embedding of `benford_stats` (lines 85-93). A pandas series indexed by
the digits 1..9 is a function `Fin 9 → ℝ`; `.sum()` is the finite sum and
`.mean()` of a 9-entry series is its sum divided by 9. -/
noncomputable def benford_stats (counts : Fin 9 → ℕ) : BenfordFit :=
  let total : ℕ := ∑ i, counts i
  if total = 0 then { n := 0, mad := none, chi_square := none }
  else
    let expected := benford_expected_distribution
    let actual : Fin 9 → ℝ := fun i => (counts i : ℝ) / (total : ℝ)
    { n := total
      mad := some ((∑ i, |actual i - expected i|) / 9)
      chi_square := some ((∑ i, (actual i - expected i) ^ 2 / expected i) * total) }

/-- Reference definition from the spec: `actual[d] = counts[d] / total`. -/
noncomputable def actual_spec (counts : Fin 9 → ℕ) (i : Fin 9) : ℝ :=
  (counts i : ℝ) / ((∑ j, counts j : ℕ) : ℝ)

/-- Reference definition from the spec: MAD is the mean over the nine
digits of `|actual[d] - expected[d]|`. -/
noncomputable def mad_spec (counts : Fin 9 → ℕ) : ℝ :=
  (∑ i, |actual_spec counts i - benford_expected_distribution i|) / 9

/-- Reference definition from the spec: chi-square is `total` times the
sum over digits of `(actual[d] - expected[d])² / expected[d]`. -/
noncomputable def chi_square_spec (counts : Fin 9 → ℕ) : ℝ :=
  ((∑ j, counts j : ℕ) : ℝ) *
    ∑ i, (actual_spec counts i - benford_expected_distribution i) ^ 2 /
      benford_expected_distribution i

/-- C5: for a distribution with positive total, `benford_stats` returns
exactly the reference statistics: `n` is the total, MAD is the mean
absolute deviation of actual from expected proportions, and chi-square is
the total times the weighted sum of squared deviations. -/
theorem benford_stats_eq_spec (counts : Fin 9 → ℕ) (h : 0 < ∑ i, counts i) :
    benford_stats counts =
      ⟨∑ i, counts i, some (mad_spec counts), some (chi_square_spec counts)⟩ := by
  have hne : (∑ i, counts i) ≠ 0 := h.ne'
  simp only [benford_stats, hne, if_false, BenfordFit.mk.injEq, mad_spec,
    chi_square_spec, actual_spec]
  refine ⟨trivial, trivial, ?_⟩
  rw [mul_comm]

/-- Witness for `benford_stats_eq_spec` on the all-ones distribution. -/
theorem benford_stats_eq_spec_witness :
    0 < (∑ i : Fin 9, (fun _ : Fin 9 => 1) i) ∧
    benford_stats (fun _ : Fin 9 => 1) =
      ⟨∑ i : Fin 9, (fun _ : Fin 9 => 1) i, some (mad_spec fun _ => 1),
        some (chi_square_spec fun _ => 1)⟩ :=
  ⟨by simp, benford_stats_eq_spec (fun _ => 1) (by simp)⟩

/-- C7: on counts totalling zero, `benford_stats` returns `n = 0` with MAD
and chi-square undefined (NaN, modelled as `none`). It returns a value —
no exception — and no division is performed on this branch (the guard on
line 88 returns before `counts / total`). -/
theorem benford_stats_zero_total (counts : Fin 9 → ℕ) (h : (∑ i, counts i) = 0) :
    benford_stats counts = ⟨0, none, none⟩ := by
  simp [benford_stats, h]

/-- Witness for `benford_stats_zero_total` on the all-zero distribution. -/
theorem benford_stats_zero_total_witness :
    (∑ i : Fin 9, (fun _ : Fin 9 => 0) i) = 0 ∧
    benford_stats (fun _ : Fin 9 => 0) = ⟨0, none, none⟩ :=
  ⟨by simp, benford_stats_zero_total (fun _ => 0) (by simp)⟩

/-- C9: the expected Benford distribution is the fixed data-independent
mapping digit ↦ log10(1 + 1/digit) on 1..9, and its nine probabilities sum
to exactly 1 (hence within any floating-point tolerance). -/
theorem benford_expected_sums_to_one :
    (∀ i : Fin 9,
      benford_expected_distribution i = Real.logb 10 (1 + 1 / ((i : ℕ) + 1 : ℝ))) ∧
    (∑ i : Fin 9, benford_expected_distribution i) = 1 := by
  refine ⟨fun i => rfl, ?_⟩
  have hterm : ∀ i : Fin 9, (1 + 1 / ((i : ℕ) + 1 : ℝ)) ≠ 0 := by
    intro i
    positivity
  have hsum : (∑ i : Fin 9, benford_expected_distribution i)
      = (∑ i : Fin 9, Real.log (1 + 1 / ((i : ℕ) + 1 : ℝ))) / Real.log 10 := by
    rw [Finset.sum_div]
    rfl
  have hprod : (∏ i : Fin 9, (1 + 1 / ((i : ℕ) + 1 : ℝ))) = 10 := by
    simp [Fin.prod_univ_succ]
    norm_num
  rw [hsum, ← Real.log_prod _ _ fun i _ => hterm i, hprod]
  exact div_self (Real.log_pos (by norm_num)).ne'

/-- A cell of the loaded dataset: missing (NaN/NaT/None), a number (exact
rational), a text, or a timestamp (an integer, e.g. epoch nanoseconds:
only its order matters here). -/
inductive Cell : Type
  | null : Cell
  | num : ℚ → Cell
  | text : String → Cell
  | date : ℤ → Cell
  deriving DecidableEq

/-- The pandas dtype tags the script branches on
(`select_dtypes(include=["number"])` on line 101,
`is_datetime64_any_dtype` on line 31). -/
inductive DType : Type
  | numeric
  | datetime
  | other
  deriving DecidableEq

/-- A named, typed column. -/
structure Col : Type where
  name : String
  dtype : DType
  values : List Cell
  deriving DecidableEq

/-- The loaded DataFrame: `nrows` is `df.shape[0]` (the length of the
index). Rectangularity (every column has `nrows` values) is assumed as a
hypothesis where a claim needs it. -/
structure DataFrame : Type where
  nrows : ℕ
  cols : List Col
  deriving DecidableEq

/-- Pandas `isna` on one cell. -/
def Cell.isNull : Cell → Bool
  | .null => true
  | _ => false

/-- Numpy/pandas float division as used for `null_count / df.shape[0]`
(line 202): division by zero does not raise — it yields NaN for a zero
numerator and a signed infinity otherwise. -/
def pyDiv (a b : ℚ) : PyFloat :=
  if b = 0 then (if a = 0 then .nan else if 0 < a then .inf else .ninf)
  else .fin (a / b)

/-- Float multiplication by the literal 100 (line 202): NaN and the
infinities absorb. -/
def pyMul100 : PyFloat → PyFloat
  | .fin q => .fin (q * 100)
  | x => x

/-- Pandas `.round(2)` (line 203): NaN and infinities pass through; a
finite value is rounded to 2 decimal places. (Numpy rounds halves to
even; this model rounds halves up — the two agree away from exact
midpoints and no claim here depends on a midpoint.) -/
def pyRound2 : PyFloat → PyFloat
  | .fin q => .fin (((⌊q * 100 + 1 / 2⌋ : ℤ) : ℚ) / 100)
  | x => x

/-- One row of the `column_profile` table (lines 195-203). -/
structure ColumnProfileRow : Type where
  name : String
  non_null_count : ℕ
  null_count : ℕ
  null_percent : PyFloat
  deriving DecidableEq

/-- Pandas `df.notna().sum()` for one column (line 198). -/
def nonNullCount (c : Col) : ℕ := (c.values.filter fun v => !v.isNull).length

/-- Pandas `df.isna().sum()` for one column (line 199). -/
def nullCount (c : Col) : ℕ := (c.values.filter fun v => v.isNull).length

/-- The `null_percent` column (lines 201-203):
`(null_count / df.shape[0] * 100).round(2)` in float semantics. -/
def null_percent (nullCnt rows : ℕ) : PyFloat :=
  pyRound2 (pyMul100 (pyDiv (nullCnt : ℚ) (rows : ℚ)))

/-- The `column_profile` table built by `write_outputs` (lines 195-203). -/
def column_profile (df : DataFrame) : List ColumnProfileRow :=
  df.cols.map fun c =>
    { name := c.name
      non_null_count := nonNullCount c
      null_count := nullCount c
      null_percent := null_percent (nullCount c) df.nrows }

/-- C2 (refuted — code bug): on a zero-row dataset the code evaluates
`0 / 0 * 100` in float semantics, so `null_percent` is NaN for every
column — not the 0% the spec requires, and the divide-by-zero case is not
guarded (though no exception is raised). Shown on a concrete one-column,
zero-row dataset. -/
theorem null_percent_nan_on_zero_rows :
    column_profile ⟨0, [⟨"amount", DType.numeric, []⟩]⟩ =
      [⟨"amount", 0, 0, PyFloat.nan⟩] ∧
    PyFloat.nan ≠ PyFloat.fin 0 := by
  constructor
  · rfl
  · intro h
    exact PyFloat.noConfusion h

/-- The series `parsed.dropna()` for one column of `detect_date_ranges`
(lines 30-35): an already-datetime column passes through unchanged (only
its NaT/missing entries drop out); any other column goes through the
best-effort parser cell by cell, failures becoming missing. The parser
(`pd.to_datetime(..., errors="coerce")`, an external collaborator) is a
parameter: every claim proved below holds for any such parser. -/
def parsedDates (parse : Cell → Option ℤ) (c : Col) : List ℤ :=
  if c.dtype = DType.datetime then
    c.values.filterMap fun v =>
      match v with
      | .date d => some d
      | _ => none
  else
    c.values.filterMap parse

/-- Embedding of `detect_date_ranges` (lines 27-42): one
`(name, min, max)` entry per column having at least one successfully
parsed value; a column with no parsed values is skipped entirely. -/
def detect_date_ranges (parse : Cell → Option ℤ) (df : DataFrame) :
    List (String × ℤ × ℤ) :=
  df.cols.filterMap fun c =>
    match parsedDates parse c with
    | [] => none
    | v :: vs => some (c.name, vs.foldl min v, vs.foldl max v)

theorem foldl_min_mem (vs : List ℤ) : ∀ v : ℤ, vs.foldl min v ∈ v :: vs := by
  induction vs with
  | nil =>
    intro v
    simp
  | cons a t ih =>
    intro v
    have h := ih (min v a)
    simp only [List.foldl_cons]
    rcases List.mem_cons.mp h with h1 | h1
    · rw [h1]
      rcases min_choice v a with hm | hm
      · rw [hm]
        exact List.mem_cons_self _ _
      · rw [hm]
        exact List.mem_cons_of_mem _ (List.mem_cons_self _ _)
    · exact List.mem_cons_of_mem _ (List.mem_cons_of_mem _ h1)

theorem foldl_min_le (vs : List ℤ) :
    ∀ v : ℤ, ∀ x ∈ v :: vs, vs.foldl min v ≤ x := by
  induction vs with
  | nil =>
    intro v x hx
    simp only [List.foldl_nil]
    rcases List.mem_cons.mp hx with rfl | h
    · exact le_refl _
    · simp at h
  | cons a t ih =>
    intro v x hx
    simp only [List.foldl_cons]
    have hhead : t.foldl min (min v a) ≤ min v a :=
      ih (min v a) (min v a) (List.mem_cons_self _ _)
    rcases List.mem_cons.mp hx with rfl | hx'
    · exact le_trans hhead (min_le_left _ _)
    · rcases List.mem_cons.mp hx' with rfl | hx2
      · exact le_trans hhead (min_le_right _ _)
      · exact ih (min v a) x (List.mem_cons_of_mem _ hx2)

theorem foldl_max_mem (vs : List ℤ) : ∀ v : ℤ, vs.foldl max v ∈ v :: vs := by
  induction vs with
  | nil =>
    intro v
    simp
  | cons a t ih =>
    intro v
    have h := ih (max v a)
    simp only [List.foldl_cons]
    rcases List.mem_cons.mp h with h1 | h1
    · rw [h1]
      rcases max_choice v a with hm | hm
      · rw [hm]
        exact List.mem_cons_self _ _
      · rw [hm]
        exact List.mem_cons_of_mem _ (List.mem_cons_self _ _)
    · exact List.mem_cons_of_mem _ (List.mem_cons_of_mem _ h1)

theorem foldl_max_ge (vs : List ℤ) :
    ∀ v : ℤ, ∀ x ∈ v :: vs, x ≤ vs.foldl max v := by
  induction vs with
  | nil =>
    intro v x hx
    simp only [List.foldl_nil]
    rcases List.mem_cons.mp hx with rfl | h
    · exact le_refl _
    · simp at h
  | cons a t ih =>
    intro v x hx
    simp only [List.foldl_cons]
    have hhead : max v a ≤ t.foldl max (max v a) :=
      ih (max v a) (max v a) (List.mem_cons_self _ _)
    rcases List.mem_cons.mp hx with rfl | hx'
    · exact le_trans (le_max_left _ _) hhead
    · rcases List.mem_cons.mp hx' with rfl | hx2
      · exact le_trans (le_max_right _ _) hhead
      · exact ih (max v a) x (List.mem_cons_of_mem _ hx2)

/-- C8: a column contributes a date-range entry iff at least one of its
values parses as a date/time (already-temporal columns passing through),
and in that case the entry records exactly the minimum and maximum of the
successfully parsed values; a column with zero parses is omitted, never
reported with null bounds. Stated for any best-effort parser and any
dataset with distinct column names. -/
theorem detect_date_ranges_spec (parse : Cell → Option ℤ) (df : DataFrame)
    (hnd : (df.cols.map Col.name).Nodup) (c : Col) (hc : c ∈ df.cols) :
    ((∃ e ∈ detect_date_ranges parse df, e.1 = c.name) ↔
      parsedDates parse c ≠ []) ∧
    (∀ e ∈ detect_date_ranges parse df, e.1 = c.name →
      (e.2.1 ∈ parsedDates parse c ∧ ∀ x ∈ parsedDates parse c, e.2.1 ≤ x) ∧
      (e.2.2 ∈ parsedDates parse c ∧ ∀ x ∈ parsedDates parse c, x ≤ e.2.2)) := by
  have hmem : ∀ e ∈ detect_date_ranges parse df, e.1 = c.name →
      ∃ v vs, parsedDates parse c = v :: vs ∧
        e = (c.name, vs.foldl min v, vs.foldl max v) := by
    intro e he hname
    rw [detect_date_ranges, List.mem_filterMap] at he
    obtain ⟨c', hc', hfc'⟩ := he
    rcases hpd : parsedDates parse c' with _ | ⟨v, vs⟩
    · rw [hpd] at hfc'
      exact absurd hfc' (by simp)
    · rw [hpd] at hfc'
      have he' : e = (c'.name, vs.foldl min v, vs.foldl max v) :=
        (Option.some.injEq _ _ ▸ hfc').symm
      have hcname : c'.name = c.name := by
        rw [he'] at hname
        exact hname
      have hcc : c' = c :=
        List.inj_on_of_nodup_map hnd hc' hc hcname
      subst hcc
      exact ⟨v, vs, hpd, by rw [he', hcname]⟩
  constructor
  · constructor
    · intro ⟨e, he, hname⟩
      obtain ⟨v, vs, hpd, _⟩ := hmem e he hname
      rw [hpd]
      simp
    · intro hne
      rcases hpd : parsedDates parse c with _ | ⟨v, vs⟩
      · exact absurd hpd hne
      · refine ⟨(c.name, vs.foldl min v, vs.foldl max v), ?_, rfl⟩
        rw [detect_date_ranges, List.mem_filterMap]
        exact ⟨c, hc, by rw [hpd]⟩
  · intro e he hname
    obtain ⟨v, vs, hpd, he'⟩ := hmem e he hname
    subst he'
    rw [hpd]
    exact ⟨⟨foldl_min_mem vs v, foldl_min_le vs v⟩,
      ⟨foldl_max_mem vs v, foldl_max_ge vs v⟩⟩

/-- Witness for `detect_date_ranges_spec`: a parser accepting exactly
timestamp cells, on a one-column dataset holding a date and a missing
value. -/
theorem detect_date_ranges_spec_witness :
    (((⟨2, [⟨"posted", DType.other, [Cell.date 5, Cell.null]⟩]⟩ :
        DataFrame)).cols.map Col.name).Nodup ∧
    (⟨"posted", DType.other, [Cell.date 5, Cell.null]⟩ : Col) ∈
      (⟨2, [⟨"posted", DType.other, [Cell.date 5, Cell.null]⟩]⟩ :
        DataFrame).cols ∧
    (((∃ e ∈ detect_date_ranges
          (fun v => match v with | Cell.date d => some d | _ => none)
          ⟨2, [⟨"posted", DType.other, [Cell.date 5, Cell.null]⟩]⟩,
        e.1 = Col.name ⟨"posted", DType.other, [Cell.date 5, Cell.null]⟩) ↔
      parsedDates (fun v => match v with | Cell.date d => some d | _ => none)
        ⟨"posted", DType.other, [Cell.date 5, Cell.null]⟩ ≠ []) ∧
    (∀ e ∈ detect_date_ranges
        (fun v => match v with | Cell.date d => some d | _ => none)
        ⟨2, [⟨"posted", DType.other, [Cell.date 5, Cell.null]⟩]⟩,
      e.1 = Col.name ⟨"posted", DType.other, [Cell.date 5, Cell.null]⟩ →
      (e.2.1 ∈ parsedDates
          (fun v => match v with | Cell.date d => some d | _ => none)
          ⟨"posted", DType.other, [Cell.date 5, Cell.null]⟩ ∧
        ∀ x ∈ parsedDates
            (fun v => match v with | Cell.date d => some d | _ => none)
            ⟨"posted", DType.other, [Cell.date 5, Cell.null]⟩, e.2.1 ≤ x) ∧
      (e.2.2 ∈ parsedDates
          (fun v => match v with | Cell.date d => some d | _ => none)
          ⟨"posted", DType.other, [Cell.date 5, Cell.null]⟩ ∧
        ∀ x ∈ parsedDates
            (fun v => match v with | Cell.date d => some d | _ => none)
            ⟨"posted", DType.other, [Cell.date 5, Cell.null]⟩, x ≤ e.2.2))) :=
  ⟨by decide, by decide,
    detect_date_ranges_spec _ _ (by decide) _ (by decide)⟩

/-- `df.select_dtypes(include=["number"])` (line 101): the numeric
columns, in original order. -/
def numeric_cols (df : DataFrame) : List Col :=
  df.cols.filter fun c => c.dtype = DType.numeric

/-- A numeric pandas column viewed as a series of optional floats
(`none` = NaN/missing). A numeric-dtype column only holds floats, so the
other cell shapes cannot occur and are mapped to missing. -/
def colSeries (c : Col) : List (Option ℚ) :=
  c.values.map fun v =>
    match v with
    | .num q => some q
    | _ => none

/-- The `n` entry of a column's overview row (lines 122-126): the total
of its digit counts (`benford_stats` reports the sum as `n` both in its
zero branch and in its main branch). -/
def colN (c : Col) : ℕ := ∑ i, benford_distribution (colSeries c) i

/-- One fixed total order extending "by `n` descending" (ties by original
position), used by `overview_order` below to pick ONE concrete output
admitted by `overview_df.sort_values(by="n", ascending=False)` (line
130). The program itself guarantees less: its default `kind='quicksort'`
is documented by pandas as not stable (only `mergesort`/`stable` are),
and numpy's introsort keeps tied keys in order only below its small-array
insertion-sort threshold, so the real tie order is unspecified. Everything
the sort is known to satisfy is captured by `IsSortValuesNDesc` below;
no theorem in this file relies on the tie order of `overview_order`
(C3 is settled against the contract, and C10's biconditional is
conditional on whichever top-3 set the sort produced). -/
def overviewLE (a b : ℕ × Col) : Prop :=
  colN b.2 < colN a.2 ∨ (colN a.2 = colN b.2 ∧ a.1 ≤ b.1)

instance : DecidableRel overviewLE := fun a b => by
  unfold overviewLE
  infer_instance

instance : IsTotal (ℕ × Col) overviewLE :=
  ⟨by
    intro a b
    unfold overviewLE
    omega⟩

instance : IsTrans (ℕ × Col) overviewLE :=
  ⟨by
    intro a b c hab hbc
    unfold overviewLE at hab hbc ⊢
    omega⟩

/-- The overview rows after the line-130 sort, each numeric column paired
with its original position: one concrete ordering admitted by the sort's
contract (theorem `overview_ndesc_sorted_and_top3` proves it satisfies
`IsSortValuesNDesc`; the program does not pin down the tie order, see
`overviewLE`). -/
def overview_order (df : DataFrame) : List (ℕ × Col) :=
  List.insertionSort overviewLE (numeric_cols df).enum

/-- `overview_df.head(3)["column"].tolist()` (line 145): the first three
column names of the sorted overview. -/
def top_columns (df : DataFrame) : List String :=
  ((overview_order df).take 3).map fun e => e.2.name

/-- Everything `overview_df.sort_values(by="n", ascending=False)` (line
130) guarantees about its output, with the default `kind='quicksort'`:
some permutation of the input rows ordered by descending `n`. Pandas
documents only `mergesort`/`stable` as stable kinds, so nothing more —
in particular no tie order — is promised; any `out` satisfying this
predicate is an admissible run of line 130 on `rows`. -/
def IsSortValuesNDesc (rows out : List (ℕ × Col)) : Prop :=
  out.Perm rows ∧ out.Pairwise fun a b => colN b.2 ≤ colN a.2

instance (rows out : List (ℕ × Col)) : Decidable (IsSortValuesNDesc rows out) := by
  unfold IsSortValuesNDesc
  infer_instance

/-- The ranking order asserted by the claim: strictly descending `n`,
with ties kept in the original (stable) column order. -/
def StableNDescOrder (out : List (ℕ × Col)) : Prop :=
  out.Pairwise fun a b => colN b.2 < colN a.2 ∨ (colN a.2 = colN b.2 ∧ a.1 < b.1)

instance (out : List (ℕ × Col)) : Decidable (StableNDescOrder out) := by
  unfold StableNDescOrder
  infer_instance

/-- C3 counterexample: on a dataset with two numeric columns "a" and "b"
of equal sample size n = 1, the tie-reversed output `[b, a]` satisfies
everything the line-130 sort guarantees (`IsSortValuesNDesc`: a
descending-n permutation — pandas' default quicksort promises no tie
order), yet it violates the claimed stable ranking, which demands
`[a, b]`. The tie-break-by-original-order clause is therefore not a
property of the program. -/
theorem overview_stable_ties_not_guaranteed :
    IsSortValuesNDesc
      (numeric_cols ⟨1, [⟨"a", DType.numeric, [Cell.num 1]⟩,
        ⟨"b", DType.numeric, [Cell.num 1]⟩]⟩).enum
      [(1, ⟨"b", DType.numeric, [Cell.num 1]⟩),
        (0, ⟨"a", DType.numeric, [Cell.num 1]⟩)] ∧
    ¬ StableNDescOrder
      [(1, ⟨"b", DType.numeric, [Cell.num 1]⟩),
        (0, ⟨"a", DType.numeric, [Cell.num 1]⟩)] := by
  constructor
  · constructor
    · decide
    · decide
  · decide

/-- C3 (amended): the overview consists of exactly the numeric columns
ordered by descending sample size `n` — the tie order between equal-n
columns being unspecified by the program (pandas' default sort kind is
not stable) — and the columns designated for detailed chart output are
exactly the first 3 of the produced ordering. The embedding
`overview_order` is one admissible output of the sort and satisfies the
full contract. -/
theorem overview_ndesc_sorted_and_top3 (df : DataFrame) :
    IsSortValuesNDesc (numeric_cols df).enum (overview_order df) ∧
    top_columns df = ((overview_order df).take 3).map (fun e => e.2.name) := by
  refine ⟨⟨List.perm_insertionSort _ _, ?_⟩, rfl⟩
  have hsorted : (overview_order df).Pairwise overviewLE :=
    List.sorted_insertionSort overviewLE _
  refine hsorted.imp ?_
  intro a b hab
  unfold overviewLE at hab
  omega

/-- The set of columns for which a detailed per-column chart file is
saved by the loop on lines 146-168: it walks the top-3 names, recomputes
each column's distribution (`numeric_df[column]` is lookup by name), and
`continue`s past — i.e. never reaches `fig.savefig` for — exactly the
columns whose counts total 0. -/
def charted_columns (df : DataFrame) : List String :=
  (top_columns df).filter fun name =>
    match (numeric_cols df).find? (fun c => c.name = name) with
    | some c => decide (colN c ≠ 0)
    | none => false

theorem find_by_name_unique (l : List Col) (hnd : (l.map Col.name).Nodup)
    (c : Col) (hc : c ∈ l) :
    l.find? (fun x => x.name = c.name) = some c := by
  induction l with
  | nil => simp at hc
  | cons a t ih =>
    rw [List.map_cons, List.nodup_cons] at hnd
    rcases List.mem_cons.mp hc with rfl | hct
    · rw [List.find?_cons_of_pos _ (by simp)]
    · have hne : a.name ≠ c.name := by
        intro h
        exact hnd.1 (h ▸ List.mem_map.mpr ⟨c, hct, rfl⟩)
      rw [List.find?_cons_of_neg _ (by simp [hne]), ih hnd.2 hct]

/-- C10: a numeric column receives a detailed chart iff it is ranked in
the top 3 AND its digit counts have a positive total; a top-3 column with
zero valid samples is silently skipped and gets no chart. Stated for
datasets whose numeric columns have distinct names (the loop re-fetches
each column by name). -/
theorem charted_iff_top3_and_nonzero (df : DataFrame)
    (hnd : ((numeric_cols df).map Col.name).Nodup) (c : Col)
    (hc : c ∈ numeric_cols df) :
    c.name ∈ charted_columns df ↔
      (c.name ∈ top_columns df ∧ 0 < colN c) := by
  have hfind : (numeric_cols df).find? (fun x => x.name = c.name) = some c :=
    find_by_name_unique _ hnd c hc
  unfold charted_columns
  rw [List.mem_filter]
  constructor
  · intro ⟨hmem, hp⟩
    rw [hfind] at hp
    refine ⟨hmem, ?_⟩
    have := of_decide_eq_true hp
    omega
  · intro ⟨hmem, hpos⟩
    refine ⟨hmem, ?_⟩
    rw [hfind]
    exact decide_eq_true (by omega)

/-- Witness for `charted_iff_top3_and_nonzero` on a one-column dataset
whose single value 1 yields digit count total 1. -/
theorem charted_iff_top3_and_nonzero_witness :
    ((numeric_cols ⟨1, [⟨"a", DType.numeric, [Cell.num 1]⟩]⟩).map
      Col.name).Nodup ∧
    (⟨"a", DType.numeric, [Cell.num 1]⟩ : Col) ∈
      numeric_cols ⟨1, [⟨"a", DType.numeric, [Cell.num 1]⟩]⟩ ∧
    (Col.name ⟨"a", DType.numeric, [Cell.num 1]⟩ ∈
        charted_columns ⟨1, [⟨"a", DType.numeric, [Cell.num 1]⟩]⟩ ↔
      (Col.name ⟨"a", DType.numeric, [Cell.num 1]⟩ ∈
          top_columns ⟨1, [⟨"a", DType.numeric, [Cell.num 1]⟩]⟩ ∧
        0 < colN ⟨"a", DType.numeric, [Cell.num 1]⟩)) :=
  ⟨by decide, by decide,
    charted_iff_top3_and_nonzero _ (by decide) _ (by decide)⟩

end AnalyzeGL
